import Mathlib

/-!
Shallow embedding of the ledger engine of the `changsongl/blockchain` Go
repository, together with theorems settling the specification claims.

Byte strings (`[]byte`) are modelled as `List Nat`; Go `int`/`int64` as `Int`
(no arithmetic in the modelled code overflows a 64-bit integer on the inputs
considered).  Go panics (`log.Panic`, slice out-of-range, nil dereference)
are modelled by `Option`/`Except` results, `none`/`error` meaning the call
panics before returning.  External cryptographic primitives (SHA-256,
RIPEMD-160, ECDSA) are opaque to the modelled code and are passed in as
function parameters; the control flow and data assembly of the repository
code never inspect their output values.
-/

namespace BlockchainRepo

/-- Byte strings (`[]byte` in Go). -/
abbrev Bytes := List Nat

/-- `TXInput` (tx.go): a transaction input. -/
structure TXInput where
  txID : Bytes
  vOut : Int
  signature : Bytes
  pubKey : Bytes
deriving DecidableEq, Repr

/-- `TXOutput` (txoutput.go): a transaction output. -/
structure TXOutput where
  value : Int
  pubKeyHash : Bytes
deriving DecidableEq, Repr

/-- `Transaction` (tx.go). -/
structure Transaction where
  id : Bytes
  vIn : List TXInput
  vOut : List TXOutput
deriving DecidableEq, Repr

/-- `IsCoinbase` (tx.go): exactly one input, empty `TxID`, `VOut = -1`. -/
def Transaction.isCoinbase (tx : Transaction) : Bool :=
  match tx.vIn with
  | [vin] => vin.txID.length == 0 && vin.vOut == -1
  | _ => false

/-- `TXOutput.IsLockedWithKey` (txoutput.go): byte-compare the stored hash. -/
def TXOutput.isLockedWithKey (out : TXOutput) (pubKeyHash : Bytes) : Bool :=
  out.pubKeyHash == pubKeyHash

/-- `Block` (block.go). -/
structure Block where
  timestamp : Int
  transactions : List Transaction
  prevBlockHash : Bytes
  hash : Bytes
  nonce : Int
  height : Int
deriving DecidableEq, Repr

/-- Insert-or-replace in an association list, the model of `bolt.Bucket.Put`:
an existing key keeps its position, a new key is appended. -/
def putEntry {α : Type} : List (Bytes × α) → Bytes → α → List (Bytes × α)
  | [], k, v => [(k, v)]
  | e :: rest, k, v => if e.1 == k then (k, v) :: rest else e :: putEntry rest k v

/-- Lookup in an association list, the model of `bolt.Bucket.Get`
(`none` models bolt returning `nil` for a missing key). -/
def getEntry {α : Type} (m : List (Bytes × α)) (k : Bytes) : Option α :=
  (m.find? (fun e => e.1 == k)).map (fun e => e.2)

/-- The persistent `blocks` bucket of `Blockchain` (blockchain.go): block
hash → block (serialization elided: gob round-trips every block), plus the
tip hash stored under the key `l`. -/
structure Store where
  blocks : List (Bytes × Block)
  tip : Bytes
deriving DecidableEq, Repr

/-- `b.Get(hash)` followed by `DeserializeBlock`. -/
def Store.get (s : Store) (h : Bytes) : Option Block :=
  getEntry s.blocks h

/-- `b.Put(hash, serialize(block))`. -/
def Store.put (s : Store) (h : Bytes) (b : Block) : Store :=
  { s with blocks := putEntry s.blocks h b }

/-- `Blockchain.AddBlock` (blockchain.go lines 116-146), modelled verbatim:
the guard `if blockInDB == nil { return nil }` returns early when the block
is NOT yet in the database; only when the block is already present does the
code store it again, read the tip block and possibly advance the tip.
`none` models the panic of `DeserializeBlock(nil)` when the tip entry is
missing. -/
def addBlock (s : Store) (block : Block) : Option Store :=
  match s.get block.hash with
  | none => some s
  | some _ =>
    let s1 := s.put block.hash block
    match s1.get s1.tip with
    | none => none
    | some lastBlock =>
      if block.height > lastBlock.height then
        some { s1 with tip := block.hash }
      else
        some s1

/-- `NewBlock` (block.go): fills the header fields and seals via
proof-of-work.  `now` models `time.Now().Unix()` and `pow` models
`NewProofOfWork(blk).Run()`, both external to the decision logic. -/
def newBlock (now : Int) (pow : Block → Int × Bytes) (txs : List Transaction)
    (prevBlockHash : Bytes) (height : Int) : Block :=
  let blk0 : Block :=
    { timestamp := now, transactions := txs, prevBlockHash := prevBlockHash,
      hash := [], nonce := 0, height := height }
  let nh := pow blk0
  { blk0 with nonce := nh.1, hash := nh.2 }

/-- Failure modes of `MineBlock`. -/
inductive MineError where
  | invalidTransaction
  | storageFailure
deriving DecidableEq, Repr

/-- `Blockchain.MineBlock` (blockchain.go lines 208-249): first every
transaction is verified (`bc.VerifyTransaction`, abstracted as the
parameter `verify`; `log.Panic("ERROR: Invalid transaction")` on the first
failure, before anything is read or written), then the tip block is read,
a new block of height `tip.height + 1` on parent `tip` is sealed, written,
and the tip advanced unconditionally.  An error result models a panic, so
the caller's store is untouched in that case. -/
def mineBlock (verify : Transaction → Bool) (now : Int)
    (pow : Block → Int × Bytes) (s : Store) (txs : List Transaction) :
    Except MineError (Store × Block) :=
  if txs.all verify then
    match s.get s.tip with
    | none => .error .storageFailure
    | some lastBlock =>
      let nb := newBlock now pow txs s.tip (lastBlock.height + 1)
      .ok ({ blocks := putEntry s.blocks nb.hash nb, tip := nb.hash }, nb)
  else
    .error .invalidTransaction

/-! ### UTXO index (block.go `UTXOSet`, blockchain.go `FindUTXO`) -/

/-- Inner loop of `UTXOSet.FindSpendableOutputs` (block.go lines 46-51):
walk the outputs of one chainstate entry with key `k`, starting at output
index `idx`, accumulating value and selecting `(key, index)` pairs while
the output is locked with `pkh` and the running total is below `amount`. -/
def scanOutputs (pkh : Bytes) (amount : Int) (k : Bytes) :
    List TXOutput → Nat → Int → List (Bytes × Nat) → Int × List (Bytes × Nat)
  | [], _, acc, sel => (acc, sel)
  | o :: rest, idx, acc, sel =>
    if o.isLockedWithKey pkh && decide (acc < amount) then
      scanOutputs pkh amount k rest (idx + 1) (acc + o.value) (sel ++ [(k, idx)])
    else
      scanOutputs pkh amount k rest (idx + 1) acc sel

/-- Outer loop of `UTXOSet.FindSpendableOutputs` (block.go lines 42-52):
walk the chainstate entries in cursor order. -/
def scanEntries (pkh : Bytes) (amount : Int) :
    List (Bytes × List TXOutput) → Int → List (Bytes × Nat) → Int × List (Bytes × Nat)
  | [], acc, sel => (acc, sel)
  | e :: rest, acc, sel =>
    let r := scanOutputs pkh amount e.1 e.2 0 acc sel
    scanEntries pkh amount rest r.1 r.2

/-- `UTXOSet.FindSpendableOutputs` (block.go lines 33-60).  The chainstate
bucket is the association list `index` (tx id → its recorded unspent
outputs); the returned selection is the flat list of `(tx id, out index)`
pairs in selection order (the Go code groups them into a map keyed by the
hex tx id, which carries the same information for distinct keys). -/
def findSpendableOutputs (index : List (Bytes × List TXOutput))
    (pkh : Bytes) (amount : Int) : Int × List (Bytes × Nat) :=
  scanEntries pkh amount index 0 []

/-- The chainstate entry a selection pair refers to. -/
def entryFor (index : List (Bytes × List TXOutput)) (k : Bytes) :
    Option (Bytes × List TXOutput) :=
  index.find? (fun e => e.1 == k)

/-- Value of the output designated by a selection pair (0 when the pair
designates nothing, which the theorems rule out). -/
def valueAt (index : List (Bytes × List TXOutput)) (k : Bytes) (i : Nat) : Int :=
  match entryFor index k with
  | some e =>
    match e.2[i]? with
    | some o => o.value
    | none => 0
  | none => 0

/-- Total value of the outputs designated by a selection. -/
def selSum (index : List (Bytes × List TXOutput)) (sel : List (Bytes × Nat)) : Int :=
  (sel.map (fun p => valueAt index p.1 p.2)).sum

/-- Go `utxo[txID]` read: zero value (no outputs) for a missing key. -/
def getOutsD (m : List (Bytes × List TXOutput)) (k : Bytes) : List TXOutput :=
  (getEntry m k).getD []

/-- Go `spentTXOs[txID]` read: zero value (empty) for a missing key. -/
def getSpentD (m : List (Bytes × List Int)) (k : Bytes) : List Int :=
  (getEntry m k).getD []

/-- The outputs of one transaction kept by `FindUTXO` (blockchain.go lines
284-298): output `outIdx` is skipped exactly when `outIdx` occurs in the
spent list of the transaction; the kept outputs are appended in index
order, WITHOUT their original indices. -/
def keptOutputs (spent : List Int) (outs : List TXOutput) : List TXOutput :=
  (outs.enum.filter (fun p => !spent.contains (Int.ofNat p.1))).map (fun p => p.2)

/-- One iteration of `FindUTXO`'s transaction loop (blockchain.go lines
281-306): record the not-yet-spent outputs of `tx`, then (for non-coinbase
transactions) record every input's `(TxID, VOut)` as spent. -/
def processTx (st : List (Bytes × List TXOutput) × List (Bytes × List Int))
    (tx : Transaction) : List (Bytes × List TXOutput) × List (Bytes × List Int) :=
  let kept := keptOutputs (getSpentD st.2 tx.id) tx.vOut
  let utxo := if kept.isEmpty then st.1
              else putEntry st.1 tx.id (getOutsD st.1 tx.id ++ kept)
  let spent := if tx.isCoinbase then st.2
               else tx.vIn.foldl
                 (fun m i => putEntry m i.txID (getSpentD m i.txID ++ [i.vOut])) st.2
  (utxo, spent)

/-- `Blockchain.FindUTXO` (blockchain.go lines 273-314).  `chain` is the
block sequence in iterator order (tip first, genesis last); the Go map
keyed by the hex tx id is modelled as an association list keyed by the raw
tx id (hex encoding is injective). -/
def findUTXO (chain : List Block) : List (Bytes × List TXOutput) :=
  (chain.foldl (fun st b => b.transactions.foldl processTx st) ([], [])).1

/-- `UTXOSet.Reindex` (block.go lines 63-99): drop and recreate the
chainstate bucket, then insert one entry per key of `FindUTXO` (the hex
round-trip `hex.DecodeString (hex.EncodeToString id) = id` is elided). -/
def reindex (chain : List Block) : List (Bytes × List TXOutput) :=
  findUTXO chain

/-! ### Merkle tree (wallet.go `NewMerkleTree`, block.go `HashTransactions`)

The SHA-256 primitive is the opaque parameter `hash`; the loop structure of
the source never inspects hash values. -/

/-- `MerkleNode` (wallet.go); only the `Data` field is observable through
`HashTransactions`, so child pointers are elided. -/
structure MerkleNode where
  data : Bytes
deriving DecidableEq, Repr

/-- The inner level-reduction loop of `NewMerkleTree` (wallet.go lines
125-128), modelled verbatim: the loop condition is `i < len(nodes)` — the
OUTER counter `i`, not the pair cursor `j` — so whenever the condition
holds the loop keeps consuming pairs until `nodes[j]` (or `nodes[j+1]`)
indexes past the end of the level, which panics (`none`).  `rem` is
`nodes[j:]`; `len` is `len(nodes)`. -/
def innerLoop (hash : Bytes → Bytes) (i : Nat) (len : Nat) :
    List MerkleNode → List MerkleNode → Option (List MerkleNode)
  | rem, acc =>
    if i < len then
      match rem with
      | a :: b :: rest => innerLoop hash i len rest (acc ++ [⟨hash (a.data ++ b.data)⟩])
      | _ => none
    else
      some acc

/-- Halving, `n / 2`, written with structural recursion (see `half_eq_div`)
so that applied terms reduce definitionally. -/
def half : Nat → Nat
  | 0 => 0
  | 1 => 0
  | n + 2 => half n + 1

/-- The outer loop of `NewMerkleTree` (wallet.go lines 122-131): `i` runs
from 0; `remaining` counts the iterations left of the fixed bound `l/2`. -/
def outerLoop (hash : Bytes → Bytes) :
    Nat → Nat → List MerkleNode → Option (List MerkleNode)
  | _, 0, nodes => some nodes
  | i, r + 1, nodes =>
    match innerLoop hash i nodes.length nodes [] with
    | none => none
    | some newLevel => outerLoop hash (i + 1) r newLevel

/-- `NewMerkleTree` (wallet.go lines 107-138): duplicate the last element
when the count is odd, hash every datum into a leaf, then run the (broken)
level reduction.  The result is `none` on panic, otherwise the root node
(`RootNode` is nil — the inner `none` — when the node list is empty). -/
def newMerkleTree (hash : Bytes → Bytes) (data : List Bytes) :
    Option (Option MerkleNode) :=
  let d2 := if data.length % 2 != 0 then data ++ [(data.getLast?).getD []] else data
  let leaves := d2.map (fun d => (⟨hash d⟩ : MerkleNode))
  (outerLoop hash 0 (half d2.length) leaves).map (fun nodes => nodes.head?)

/-- `Block.HashTransactions` (block.go lines 203-213): serialize each
transaction (opaque `ser`), build the Merkle tree, return the root's data.
`none` models a panic, either inside `NewMerkleTree` or from dereferencing
a nil `RootNode`. -/
def hashTransactions (ser : Transaction → Bytes) (hash : Bytes → Bytes)
    (txs : List Transaction) : Option Bytes :=
  match newMerkleTree hash (txs.map ser) with
  | none => none
  | some none => none
  | some (some root) => some root.data

/-! ### Signature encoding (tx.go `Sign` / `Verify`) -/

/-- Minimal big-endian bytes of a natural number, the model of Go's
`big.Int.Bytes()` (no leading zero bytes; `[]` for zero).  The first
argument is recursion fuel; `n` itself always suffices. -/
def natBytesAux : Nat → Nat → Bytes
  | 0, _ => []
  | _ + 1, 0 => []
  | f + 1, n + 1 => natBytesAux f ((n + 1) / 256) ++ [(n + 1) % 256]

/-- `big.Int.Bytes()` for a natural number. -/
def natBytes (n : Nat) : Bytes :=
  natBytesAux n n

/-- Big-endian interpretation of a byte string, the model of Go's
`big.Int.SetBytes` (leading zero bytes are ignored). -/
def beNat (bs : Bytes) : Nat :=
  bs.foldl (fun a b => a * 256 + b) 0

/-- The signature bytes `Sign` stores (tx.go line 211):
`append(r.Bytes(), s.Bytes()...)` — the MINIMAL big-endian encodings,
not padded to 32 bytes. -/
def signatureBytes (r s : Nat) : Bytes :=
  natBytes r ++ natBytes s

/-- How `Verify` parses a stored signature (tx.go lines 286-289): split at
`len/2` and read each half big-endian via `SetBytes`. -/
def verifySplit (sig : Bytes) : Nat × Nat :=
  (beNat (sig.take (sig.length / 2)), beNat (sig.drop (sig.length / 2)))

/-! ### Signing pipeline (tx.go `Sign`, `TrimmedCopy`) -/

/-- `Transaction.TrimmedCopy` (tx.go lines 253-268): every input keeps
`TxID` and `VOut` with `Signature` and `PubKey` cleared; outputs and `ID`
are copied. -/
def trimmedCopy (tx : Transaction) : Transaction :=
  { id := tx.id,
    vIn := tx.vIn.map (fun i =>
      { txID := i.txID, vOut := i.vOut, signature := [], pubKey := [] }),
    vOut := tx.vOut.map (fun o => { value := o.value, pubKeyHash := o.pubKeyHash }) }

/-- The `prevTXs` map (keyed in Go by the hex tx id; raw bytes here). -/
def lookupPrev (prevTXs : List (Bytes × Transaction)) (k : Bytes) :
    Option Transaction :=
  (prevTXs.find? (fun e => e.1 == k)).map (fun e => e.2)

/-- `validatePrevTXs` (tx.go lines 219-227): every input's referenced
transaction must be present with a non-empty `ID` (a missing map key reads
as the zero `Transaction`, whose `ID` is nil). -/
def validatePrevTXs (prevTXs : List (Bytes × Transaction)) (tx : Transaction) : Bool :=
  tx.vIn.all (fun vin =>
    match lookupPrev prevTXs vin.txID with
    | some p => !p.id.isEmpty
    | none => false)

/-- `prevTx.VOut[vin.VOut]`: `none` models the out-of-range panic. -/
def getOutput (t : Transaction) (i : Int) : Option TXOutput :=
  if i < 0 then none else t.vOut.get? i.toNat

/-- Replace the element at an index of a list (no effect out of range; the
source only uses in-range indices). -/
def modifyIdx {α : Type} (f : α → α) : Nat → List α → List α
  | _, [] => []
  | 0, a :: rest => f a :: rest
  | n + 1, a :: rest => a :: modifyIdx f n rest

/-- Apply `f` to input number `k` of a transaction, the model of an
assignment to `tx.VIn[k]`. -/
def updateInput (t : Transaction) (k : Nat) (f : TXInput → TXInput) : Transaction :=
  { t with vIn := modifyIdx f k t.vIn }

/-- The per-input loop of `Sign` (tx.go lines 200-215), iterating over the
snapshot `fuel` of `txCopy.VIn` with index `k`.  For each input: look up
the previous transaction, set the trimmed copy's `PubKey` at `k` to the
referenced output's `PubKeyHash`, format the trimmed copy into the message
(`fmt.Sprintf("%x\n", txCopy)`, the opaque `format`), obtain the signature
bytes (`ecdsa.Sign` plus the `r.Bytes()‖s.Bytes()` concatenation, the
opaque `signer`, indexed by `k` because each call draws fresh randomness),
store them into the real transaction's input `k`, and clear the trimmed
copy's `PubKey` again.  `none` models the panics (missing previous
transaction, output index out of range). -/
def signLoop (signer : Nat → Bytes → Bytes) (format : Transaction → Bytes)
    (prevTXs : List (Bytes × Transaction)) :
    Nat → List TXInput → Transaction → Transaction → Option Transaction
  | _, [], _, tx => some tx
  | k, vin :: rest, txCopy, tx =>
    match lookupPrev prevTXs vin.txID with
    | none => none
    | some prevTx =>
      match getOutput prevTx vin.vOut with
      | none => none
      | some out =>
        let txCopy1 := updateInput txCopy k
          (fun i => { i with signature := [], pubKey := out.pubKeyHash })
        let sig := signer k (format txCopy1)
        let tx1 := updateInput tx k (fun i => { i with signature := sig })
        let txCopy2 := updateInput txCopy1 k (fun i => { i with pubKey := [] })
        signLoop signer format prevTXs (k + 1) rest txCopy2 tx1

/-- `Transaction.Sign` (tx.go lines 191-216): coinbase transactions are
returned untouched; otherwise the previous transactions are validated
(`none` models the `log.Panic` on failure) and every input is signed. -/
def signTx (signer : Nat → Bytes → Bytes) (format : Transaction → Bytes)
    (prevTXs : List (Bytes × Transaction)) (tx : Transaction) :
    Option Transaction :=
  if tx.isCoinbase then
    some tx
  else if validatePrevTXs prevTXs tx then
    let txCopy := trimmedCopy tx
    signLoop signer format prevTXs 0 txCopy.vIn txCopy tx
  else
    none

/-- Everything of a `TXInput` except its `Signature`. -/
def inputFrame (i : TXInput) : Bytes × Int × Bytes :=
  (i.txID, i.vOut, i.pubKey)

/-! ### Base58, addresses (wallet.go), transaction build (tx.go) -/

/-- The Base58 alphabet (spec section 4.1). -/
def base58Alphabet : List Char :=
  "123456789ABCDEFGHJKLMNPQRSTUVWXYZabcdefghijkmnopqrstuvwxyz".toList

/-- Modelled from the spec: `Base58Decode` is used by `ValidateAddress`
(wallet.go) and `TXOutput.Lock` (txoutput.go) but its definition is not
among the provided source files.  Per spec section 4.1, decoding reads the
symbols as base-58 digits of a big-endian integer, fails on a character
outside the alphabet, and maps each leading `1` to a leading zero byte. -/
def base58Decode (s : List Char) : Option Bytes :=
  let idx := fun c => base58Alphabet.findIdx? (fun a => a = c)
  let num := s.foldl (fun acc c =>
    match acc, idx c with
    | some n, some d => some (n * 58 + d)
    | _, _ => none) (some 0)
  match num with
  | none => none
  | some n => some (List.replicate (s.takeWhile (fun c => c = '1')).length 0 ++ natBytes n)

/-- `addressChecksumLen` (wallet.go). -/
def addressChecksumLen : Nat := 4

/-- `checksum` (wallet.go lines 71-76): first 4 bytes of a double hash
(`sha` abstracts SHA-256). -/
def addrChecksum (sha : Bytes → Bytes) (payload : Bytes) : Bytes :=
  (sha (sha payload)).take addressChecksumLen

/-- `ValidateAddress` (wallet.go lines 60-68), modelled verbatim: decode,
slice `pubKeyHash[len-4:]`, read `pubKeyHash[0]`, slice
`pubKeyHash[1:len-4]`, re-derive the checksum and byte-compare.  The
slices are taken WITHOUT a length check: when the decoded payload has
fewer than 4 bytes the first slice panics, and with exactly 4 the slice
`[1:0]` panics — both modelled by `none`. -/
def validateAddress (sha : Bytes → Bytes) (address : List Char) : Option Bool :=
  match base58Decode address with
  | none => none
  | some pubKeyHash =>
    if pubKeyHash.length < addressChecksumLen then none
    else
      let actual := pubKeyHash.drop (pubKeyHash.length - addressChecksumLen)
      match pubKeyHash with
      | [] => none
      | ver :: _ =>
        if pubKeyHash.length - addressChecksumLen < 1 then none
        else
          let body := (pubKeyHash.drop 1).take (pubKeyHash.length - addressChecksumLen - 1)
          let target := addrChecksum sha ([ver] ++ body)
          some (actual == target)

/-- `NewTXOutput` plus `TXOutput.Lock` (txoutput.go lines 15-30): decode
the address and keep `pubKeyHash[1 : len-4]`.  `none` models the slice
panic when the decoded address is shorter than 5 bytes. -/
def newTXOutput (value : Int) (address : List Char) : Option TXOutput :=
  match base58Decode address with
  | none => none
  | some pk =>
    if pk.length < 5 then none
    else some { value := value, pubKeyHash := (pk.drop 1).take (pk.length - 5) }

/-- `NewUTXOTransaction` (tx.go lines 330-365), modelled verbatim:
derive the key hash (`hashPubKey` abstracts `HashPubKey`), select
spendable outputs, panic (`none`) when under-funded, build one input per
selected pair carrying the wallet's public key, build the payment output
and (when `acc > amount`) the change output to the wallet's own address
(`getAddress` abstracts `Wallet.GetAddress`), set the id (`txHash`
abstracts `Transaction.Hash`), sign through the chain (`sign` abstracts
`Blockchain.SignTransaction`; `none` models its panics) — and then the
source returns `nil` (`some none`), discarding the built transaction. -/
def newUTXOTransaction (hashPubKey : Bytes → Bytes)
    (getAddress : Bytes → List Char) (txHash : Transaction → Bytes)
    (sign : Transaction → Option Transaction)
    (walletPub : Bytes) (toAddr : List Char) (amount : Int)
    (index : List (Bytes × List TXOutput)) : Option (Option Transaction) :=
  let pkh := hashPubKey walletPub
  let r := findSpendableOutputs index pkh amount
  if r.1 < amount then none
  else
    let inputs := r.2.map (fun p =>
      (⟨p.1, Int.ofNat p.2, [], walletPub⟩ : TXInput))
    let fromAddr := getAddress walletPub
    match newTXOutput amount toAddr with
    | none => none
    | some payOut =>
      let outsOpt :=
        if r.1 > amount then
          (newTXOutput (r.1 - amount) fromAddr).map (fun chg => [payOut, chg])
        else some [payOut]
      match outsOpt with
      | none => none
      | some outs =>
        let tx0 : Transaction := { id := [], vIn := inputs, vOut := outs }
        let tx1 := { tx0 with id := txHash tx0 }
        match sign tx1 with
        | none => none
        | some _ => some none

/-! ### Concrete fixtures used by the claim theorems and witnesses -/

/-- Fixture: a genesis-like block with hash `[1]` at height 0. -/
def genesisBlk : Block :=
  { timestamp := 0, transactions := [], prevBlockHash := [], hash := [1],
    nonce := 0, height := 0 }

/-- Fixture: a successor block with hash `[2]` at height 1. -/
def blkNew : Block :=
  { timestamp := 1, transactions := [], prevBlockHash := [1], hash := [2],
    nonce := 0, height := 1 }

/-- Fixture: a store holding only `genesisBlk`, tip at its hash. -/
def store0 : Store := { blocks := [([1], genesisBlk)], tip := [1] }

/-- Fixture: a store already holding `blkNew`, tip still at the genesis. -/
def store1 : Store := { blocks := [([1], genesisBlk), ([2], blkNew)], tip := [1] }

/-- Fixture: a coinbase transaction with output 0 (value 5, locked to `[7]`)
and output 1 (value 6, locked to `[8]`). -/
def txT : Transaction :=
  { id := [10],
    vIn := [{ txID := [], vOut := -1, signature := [], pubKey := [99] }],
    vOut := [{ value := 5, pubKeyHash := [7] }, { value := 6, pubKeyHash := [8] }] }

/-- Fixture: a transaction spending output 0 of `txT`. -/
def txS : Transaction :=
  { id := [11],
    vIn := [{ txID := [10], vOut := 0, signature := [1], pubKey := [2] }],
    vOut := [{ value := 5, pubKeyHash := [9] }] }

/-- Fixture: a two-block chain in iterator order (tip block first): the tip
block spends output 0 of `txT`, leaving output 1 (locked to `[8]`) unspent. -/
def chainC2 : List Block :=
  [{ timestamp := 1, transactions := [txS], prevBlockHash := [1], hash := [2],
     nonce := 0, height := 1 },
   { timestamp := 0, transactions := [txT], prevBlockHash := [], hash := [1],
     nonce := 0, height := 0 }]

/-- Fixture: a one-entry chainstate index with one output locked to `[7]`. -/
def idxW : List (Bytes × List TXOutput) :=
  [([1], [{ value := 5, pubKeyHash := [7] }])]

/-- Fixture: a non-coinbase transaction about to be signed. -/
def txToSign : Transaction :=
  { id := [1],
    vIn := [{ txID := [5], vOut := 0, signature := [], pubKey := [7] }],
    vOut := [{ value := 3, pubKeyHash := [9] }] }

/-- Fixture: the previous transaction `txToSign` spends from. -/
def prevForSign : Transaction :=
  { id := [2],
    vIn := [{ txID := [], vOut := -1, signature := [], pubKey := [0] }],
    vOut := [{ value := 10, pubKeyHash := [7] }] }

/-- Fixture: `txToSign` after signing with the constant signer `[42]`. -/
def signedTx : Transaction :=
  { id := [1],
    vIn := [{ txID := [5], vOut := 0, signature := [42], pubKey := [7] }],
    vOut := [{ value := 3, pubKeyHash := [9] }] }

/-! ### Helper lemmas -/

/-- `half` is division by two, so `outerLoop` receives the source's `l/2`. -/
theorem half_eq_div : ∀ n : Nat, half n = n / 2
  | 0 => rfl
  | 1 => rfl
  | n + 2 => by
    show half n + 1 = (n + 2) / 2
    rw [half_eq_div n]
    omega

/-! ### Claim theorems -/

/-- Claim C1 (refuted; evaluation at the failing input).  `AddBlock` is NOT
idempotent in the claimed sense: its guard is inverted.  On a store holding
only the genesis, adding a fresh block `blkNew` is a complete no-op — the
result is the unchanged store and the block is absent afterwards — while on
a store that ALREADY holds `blkNew` (the case the claim says "do nothing")
the call re-stores it and advances the tip to its hash. -/
theorem addBlock_drops_new_blocks :
    addBlock store0 blkNew = some store0
    ∧ store0.get blkNew.hash = none
    ∧ (addBlock store1 blkNew).map Store.tip = some blkNew.hash := by
  decide

/-- Claim C6 (refuted; evaluation at the failing input).  The tip update
rule fails: `blkNew` has height 1, strictly above the tip block's height 0,
yet after `addBlock` the tip is still the genesis hash `[1]`, not
`blkNew.hash = [2]`, because the inverted guard returns before the tip
logic is ever reached for a block not already stored. -/
theorem addBlock_ignores_higher_new_block :
    genesisBlk.height = 0 ∧ blkNew.height = 1
    ∧ store0.get store0.tip = some genesisBlk
    ∧ blkNew.hash = [2]
    ∧ (addBlock store0 blkNew).map Store.tip = some [1] := by
  decide

/-- Claim C2 (refuted; evaluation at the failing input).  After `reindex`,
the chainstate entry for `txT` — whose output 0 is spent and whose output 1
(value 6, locked to `[8]`) is unspent — holds the single unspent output
COMPACTED to position 0, and `findSpendableOutputs` therefore reports the
selection pair `([10], 0)`, not the original output index 1:
`FindUTXO` appends surviving outputs without recording their original
indices. -/
theorem reindex_compacts_output_indices :
    reindex chainC2
      = [([11], [{ value := 5, pubKeyHash := [9] }]),
         ([10], [{ value := 6, pubKeyHash := [8] }])]
    ∧ findSpendableOutputs (reindex chainC2) [8] 6 = (6, [([10], 0)])
    ∧ txT.vOut[0]? = some { value := 5, pubKeyHash := [7] }
    ∧ txT.vOut[1]? = some { value := 6, pubKeyHash := [8] } := by
  decide

/-- Claim C3 (refuted; evaluation at the failing input, for EVERY hash and
serialization function).  For a single transaction — indeed for any
non-empty input — `HashTransactions` does not return a Merkle root: the
level-reduction loop's condition compares the outer counter `i` against the
level size, so the pair cursor `j` runs past the end of the node list and
the program panics with an index-out-of-range error. -/
theorem hashTransactions_single_tx_panics (ser : Transaction → Bytes)
    (hash : Bytes → Bytes) (t : Transaction) :
    hashTransactions ser hash [t] = none :=
  rfl

/-- Claim C5 (refuted; evaluation at the failing input).  For the signing
outcome `r = 256`, `s = 1` the stored signature is
`r.Bytes() ++ s.Bytes() = [1,0] ++ [1] = [1,0,1]` — the minimal big-endian
encodings, 3 bytes rather than the claimed fixed 64 — and `Verify`'s
half-way split reads it back as `(1, 1)`, not `(256, 1)`: the recovery is
exact only when the two minimal encodings happen to have equal length. -/
theorem sign_signature_unpadded :
    signatureBytes 256 1 = [1, 0, 1]
    ∧ (signatureBytes 256 1).length = 3
    ∧ verifySplit [1, 0, 1] = (1, 1) := by
  decide

/-- Claim C10 (confirmed, for every hash function).  `ValidateAddress` on
the empty string — whose Base58 decoding is the empty byte string — does
not return `false`: it slices the decoded payload without a length check,
so evaluation panics (`none`) at `pubKeyHash[len-4:]`. -/
theorem validateAddress_empty_panics (sha : Bytes → Bytes) :
    validateAddress sha [] = none :=
  rfl

/-- Every branch of `NewUTXOTransaction` yields a panic (`none`) or the
`return nil` (`some none`); collapsing with `getD` states both at once. -/
theorem newUTXOTransaction_collapse (hashPubKey : Bytes → Bytes)
    (getAddress : Bytes → List Char) (txHash : Transaction → Bytes)
    (sign : Transaction → Option Transaction) (walletPub : Bytes)
    (toAddr : List Char) (amount : Int)
    (index : List (Bytes × List TXOutput)) :
    (newUTXOTransaction hashPubKey getAddress txHash sign walletPub
        toAddr amount index).getD none = none := by
  unfold newUTXOTransaction
  simp only []
  repeat' split
  all_goals rfl

/-- Claim C4 (refuted).  `NewUTXOTransaction` never returns the built
transaction: its final statement is `return nil`.  First conjunct: a
concrete fully-successful run — sufficient funds, decodable recipient
address, successful signing — still returns `nil` (`some none`).  Second
conjunct: for EVERY choice of crypto/encoding primitives and inputs the
result is either a panic (`none`) or the nil return (`some none`), never a
transaction. -/
theorem newUTXOTransaction_returns_nil :
    newUTXOTransaction (fun pk => pk) (fun _ => []) (fun _ => [9]) some
        [3] ['2', '2', '2', '2', '2', '2', '2'] 5
        [([1], [{ value := 5, pubKeyHash := [3] }])]
      = some none
    ∧ ∀ hashPubKey getAddress txHash sign walletPub toAddr amount index,
        newUTXOTransaction hashPubKey getAddress txHash sign walletPub
            toAddr amount index = none
        ∨ newUTXOTransaction hashPubKey getAddress txHash sign walletPub
            toAddr amount index = some none := by
  constructor
  · decide
  · intro hashPubKey getAddress txHash sign walletPub toAddr amount index
    rcases h : newUTXOTransaction hashPubKey getAddress txHash sign walletPub
        toAddr amount index with _ | x
    · exact Or.inl rfl
    · right
      have hc := newUTXOTransaction_collapse hashPubKey getAddress txHash sign
        walletPub toAddr amount index
      rw [h] at hc
      simp only [Option.getD_some] at hc
      exact congrArg some hc

/-- Claim C7 (confirmed).  `MineBlock` verifies every supplied transaction
before touching the store: when some transaction fails verification the
call fails with `invalidTransaction` — the verification loop precedes
every read and write, so the returned error carries no new state and the
caller's store and tip are exactly as before.  When all transactions
verify and the tip block is readable, the call returns a new block of
height `tip.height + 1`, parent `tip.hash`, carrying exactly `txs`, with
the block written and the tip advanced to its hash. -/
theorem mineBlock_spec (verify : Transaction → Bool) (now : Int)
    (pow : Block → Int × Bytes) (s : Store) (txs : List Transaction) :
    ((∃ t ∈ txs, verify t = false) →
      mineBlock verify now pow s txs = .error .invalidTransaction)
    ∧ (∀ lb, s.get s.tip = some lb → (∀ t ∈ txs, verify t = true) →
        ∃ s2 nb, mineBlock verify now pow s txs = .ok (s2, nb)
          ∧ nb.height = lb.height + 1
          ∧ nb.prevBlockHash = s.tip
          ∧ nb.transactions = txs
          ∧ s2.tip = nb.hash
          ∧ s2.blocks = putEntry s.blocks nb.hash nb) := by
  constructor
  · rintro ⟨t, ht, hv⟩
    have hall : txs.all verify = false := by
      cases hq : txs.all verify with
      | false => rfl
      | true => rw [List.all_eq_true.mp hq t ht] at hv; exact absurd hv (by simp)
    simp [mineBlock, hall]
  · intro lb hlb hall
    have hq : txs.all verify = true := List.all_eq_true.mpr hall
    refine ⟨{ blocks := putEntry s.blocks
                (newBlock now pow txs s.tip (lb.height + 1)).hash
                (newBlock now pow txs s.tip (lb.height + 1)),
              tip := (newBlock now pow txs s.tip (lb.height + 1)).hash },
            newBlock now pow txs s.tip (lb.height + 1),
            ?_, ?_, ?_, ?_, rfl, rfl⟩
    · simp [mineBlock, hq, hlb]
    · simp [newBlock]
    · simp [newBlock]
    · simp [newBlock]

/-- Witness for `mineBlock_spec` at a concrete store, transaction list and
proof-of-work function. -/
theorem mineBlock_spec_witness :
    store0.get store0.tip = some genesisBlk
    ∧ (∀ t ∈ [txT], (fun (_ : Transaction) => true) t = true)
    ∧ ∃ s2 nb, mineBlock (fun _ => true) 0 (fun _ => (0, [9])) store0 [txT]
          = .ok (s2, nb)
        ∧ nb.height = genesisBlk.height + 1
        ∧ nb.prevBlockHash = store0.tip
        ∧ nb.transactions = [txT]
        ∧ s2.tip = nb.hash
        ∧ s2.blocks = putEntry store0.blocks nb.hash nb :=
  ⟨by decide, fun t _ => rfl,
    (mineBlock_spec (fun _ => true) 0 (fun _ => (0, [9])) store0 [txT]).2
      genesisBlk (by decide) (fun t _ => rfl)⟩

/-- A per-element update that preserves `inputFrame` preserves the framed
view of the whole input list. -/
theorem modifyIdx_map_frame (f : TXInput → TXInput)
    (hf : ∀ a, inputFrame (f a) = inputFrame a) :
    ∀ (k : Nat) (l : List TXInput),
      (modifyIdx f k l).map inputFrame = l.map inputFrame
  | k, [] => by cases k <;> rfl
  | 0, a :: rest => by simp [modifyIdx, hf a]
  | n + 1, a :: rest => by
    simp [modifyIdx, modifyIdx_map_frame f hf n rest]

/-- The signing loop only ever rewrites `Signature` fields of the real
transaction: id, outputs and the framed view of the inputs are invariant. -/
theorem signLoop_frame (signer : Nat → Bytes → Bytes)
    (format : Transaction → Bytes) (prevTXs : List (Bytes × Transaction)) :
    ∀ (fuel : List TXInput) (k : Nat) (txCopy tx tx2 : Transaction),
      signLoop signer format prevTXs k fuel txCopy tx = some tx2 →
      tx2.id = tx.id ∧ tx2.vOut = tx.vOut
        ∧ tx2.vIn.map inputFrame = tx.vIn.map inputFrame := by
  intro fuel
  induction fuel with
  | nil =>
    intro k txCopy tx tx2 h
    simp only [signLoop] at h
    injection h with h
    subst h
    exact ⟨rfl, rfl, rfl⟩
  | cons vin rest ih =>
    intro k txCopy tx tx2 h
    simp only [signLoop] at h
    split at h
    · exact absurd h (by simp)
    · split at h
      · exact absurd h (by simp)
      · obtain ⟨h1, h2, h3⟩ := ih (k + 1) _ _ tx2 h
        refine ⟨h1, h2, ?_⟩
        rw [h3]
        show (modifyIdx _ k tx.vIn).map inputFrame = tx.vIn.map inputFrame
        apply modifyIdx_map_frame
        intro a
        rfl

/-- Claim C9 (confirmed).  Whenever `Sign` returns (rather than panics),
the resulting transaction differs from the input transaction at most in
the `Signature` fields of its inputs: the id, the outputs, and every
input's `TxID`, `VOut` and `PubKey` are unchanged.  (The coinbase early
return is covered as well: there the transaction is returned whole.) -/
theorem signTx_frame (signer : Nat → Bytes → Bytes)
    (format : Transaction → Bytes) (prevTXs : List (Bytes × Transaction))
    (tx tx2 : Transaction) (h : signTx signer format prevTXs tx = some tx2) :
    tx2.id = tx.id ∧ tx2.vOut = tx.vOut
      ∧ tx2.vIn.map inputFrame = tx.vIn.map inputFrame := by
  unfold signTx at h
  split at h
  · injection h with h
    subst h
    exact ⟨rfl, rfl, rfl⟩
  · split at h
    · exact signLoop_frame signer format prevTXs _ 0 _ tx tx2 h
    · exact absurd h (by simp)

/-- Witness for `signTx_frame`: a concrete one-input transaction signed
with a constant signer. -/
theorem signTx_frame_witness :
    signTx (fun _ _ => [42]) (fun _ => []) [([5], prevForSign)] txToSign
        = some signedTx
    ∧ signedTx.id = txToSign.id ∧ signedTx.vOut = txToSign.vOut
    ∧ signedTx.vIn.map inputFrame = txToSign.vIn.map inputFrame :=
  ⟨by decide,
    signTx_frame (fun _ _ => [42]) (fun _ => []) [([5], prevForSign)]
      txToSign signedTx (by decide)⟩

/-- Once the accumulated total has reached `amount`, the output scan selects
nothing further: every later guard `accumulated < amount` fails. -/
theorem scanOutputs_frozen (pkh : Bytes) (amount : Int) (k : Bytes) :
    ∀ (outs : List TXOutput) (idx : Nat) (acc : Int) (sel : List (Bytes × Nat)),
      ¬acc < amount → scanOutputs pkh amount k outs idx acc sel = (acc, sel) := by
  intro outs
  induction outs with
  | nil => intro idx acc sel _; rfl
  | cons o rest ih =>
    intro idx acc sel h
    have hc : (o.isLockedWithKey pkh && decide (acc < amount)) = false := by
      simp [decide_eq_false h]
    simp only [scanOutputs, hc, Bool.false_eq_true, if_false]
    exact ih (idx + 1) acc sel h

/-- Once the accumulated total has reached `amount`, the entry scan is the
identity as well. -/
theorem scanEntries_frozen (pkh : Bytes) (amount : Int) :
    ∀ (entries : List (Bytes × List TXOutput)) (acc : Int)
      (sel : List (Bytes × Nat)),
      ¬acc < amount → scanEntries pkh amount entries acc sel = (acc, sel) := by
  intro entries
  induction entries with
  | nil => intro acc sel _; rfl
  | cons e rest ih =>
    intro acc sel h
    simp only [scanEntries, scanOutputs_frozen pkh amount e.1 e.2 0 acc sel h]
    exact ih acc sel h

/-- The output scan only ever appends to the selection. -/
theorem scanOutputs_grow (pkh : Bytes) (amount : Int) (k : Bytes) :
    ∀ (outs : List TXOutput) (idx : Nat) (acc : Int) (sel : List (Bytes × Nat)),
      ∃ t, (scanOutputs pkh amount k outs idx acc sel).2 = sel ++ t := by
  intro outs
  induction outs with
  | nil => intro idx acc sel; exact ⟨[], by simp [scanOutputs]⟩
  | cons o rest ih =>
    intro idx acc sel
    by_cases hc : (o.isLockedWithKey pkh && decide (acc < amount)) = true
    · obtain ⟨t, ht⟩ := ih (idx + 1) (acc + o.value) (sel ++ [(k, idx)])
      exact ⟨(k, idx) :: t, by simp [scanOutputs, hc, ht]⟩
    · obtain ⟨t, ht⟩ := ih (idx + 1) acc sel
      refine ⟨t, ?_⟩
      simp only [scanOutputs, eq_false_of_ne_true hc, Bool.false_eq_true, if_false]
      exact ht

/-- The entry scan only ever appends to the selection. -/
theorem scanEntries_grow (pkh : Bytes) (amount : Int) :
    ∀ (entries : List (Bytes × List TXOutput)) (acc : Int)
      (sel : List (Bytes × Nat)),
      ∃ t, (scanEntries pkh amount entries acc sel).2 = sel ++ t := by
  intro entries
  induction entries with
  | nil => intro acc sel; exact ⟨[], by simp [scanEntries]⟩
  | cons e rest ih =>
    intro acc sel
    obtain ⟨t1, ht1⟩ := scanOutputs_grow pkh amount e.1 e.2 0 acc sel
    obtain ⟨t2, ht2⟩ := ih (scanOutputs pkh amount e.1 e.2 0 acc sel).1
      (scanOutputs pkh amount e.1 e.2 0 acc sel).2
    refine ⟨t1 ++ t2, ?_⟩
    show (scanEntries pkh amount rest
      (scanOutputs pkh amount e.1 e.2 0 acc sel).1
      (scanOutputs pkh amount e.1 e.2 0 acc sel).2).2 = sel ++ (t1 ++ t2)
    rw [ht2, ht1, List.append_assoc]

/-- Structure of one entry's scan: the result extends the selection by a
block of new pairs, the accumulated total grows by exactly the designated
value of those pairs, and each new pair designates a locked output of the
entry.  `full` is the entry's complete output list; `outs` is its suffix
from position `idx` on. -/
theorem scanOutputs_build (index : List (Bytes × List TXOutput))
    (pkh : Bytes) (amount : Int) (k : Bytes) (full : List TXOutput)
    (hfind : entryFor index k = some (k, full)) :
    ∀ (outs : List TXOutput) (idx : Nat) (acc : Int) (sel : List (Bytes × Nat)),
      (∀ j, outs[j]? = full[idx + j]?) →
      ∃ t, scanOutputs pkh amount k outs idx acc sel
            = (acc + (t.map (fun p => valueAt index p.1 p.2)).sum, sel ++ t)
        ∧ ∀ p ∈ t, p.1 = k
            ∧ ∃ o, full[p.2]? = some o ∧ o.isLockedWithKey pkh = true := by
  intro outs
  induction outs with
  | nil =>
    intro idx acc sel _
    exact ⟨[], by simp [scanOutputs], by simp⟩
  | cons o rest ih =>
    intro idx acc sel h
    have h0 : full[idx]? = some o := by
      have := h 0
      simpa using this.symm
    have hrest : ∀ j, rest[j]? = full[(idx + 1) + j]? := by
      intro j
      have := h (j + 1)
      simpa [Nat.add_comm, Nat.add_assoc, Nat.add_left_comm] using this
    by_cases hc : (o.isLockedWithKey pkh && decide (acc < amount)) = true
    · obtain ⟨t, ht, hmem⟩ := ih (idx + 1) (acc + o.value) (sel ++ [(k, idx)]) hrest
      have hval : valueAt index k idx = o.value := by
        simp [valueAt, hfind, h0]
      refine ⟨(k, idx) :: t, ?_, ?_⟩
      · simp only [scanOutputs, hc, if_true, ht, List.map_cons, List.sum_cons,
          hval, List.append_assoc, List.singleton_append, Prod.mk.injEq]
        exact ⟨by omega, trivial⟩
      · intro p hp
        rcases List.mem_cons.mp hp with h1 | h1
        · subst h1
          have hlk : o.isLockedWithKey pkh = true := by
            have hc2 := hc
            simp only [Bool.and_eq_true] at hc2
            exact hc2.1
          exact ⟨rfl, o, h0, hlk⟩
        · exact hmem p h1
    · obtain ⟨t, ht, hmem⟩ := ih (idx + 1) acc sel hrest
      refine ⟨t, ?_, hmem⟩
      simp only [scanOutputs, eq_false_of_ne_true hc, Bool.false_eq_true, if_false]
      exact ht

/-- Structure of the whole entry scan, relative to a list of entries each of
which resolves to itself in the index. -/
theorem scanEntries_build (index : List (Bytes × List TXOutput))
    (pkh : Bytes) (amount : Int) :
    ∀ (entries : List (Bytes × List TXOutput)) (acc : Int)
      (sel : List (Bytes × Nat)),
      (∀ e ∈ entries, entryFor index e.1 = some e) →
      ∃ t, scanEntries pkh amount entries acc sel
            = (acc + (t.map (fun p => valueAt index p.1 p.2)).sum, sel ++ t)
        ∧ ∀ p ∈ t, ∃ e ∈ entries, p.1 = e.1
            ∧ ∃ o, e.2[p.2]? = some o ∧ o.isLockedWithKey pkh = true := by
  intro entries
  induction entries with
  | nil =>
    intro acc sel _
    exact ⟨[], by simp [scanEntries], by simp⟩
  | cons e rest ih =>
    intro acc sel h
    have hfind : entryFor index e.1 = some (e.1, e.2) := h e (List.mem_cons_self e rest)
    obtain ⟨t1, ht1, hm1⟩ := scanOutputs_build index pkh amount e.1 e.2 hfind
      e.2 0 acc sel (fun j => by simp)
    obtain ⟨t2, ht2, hm2⟩ := ih
      (acc + (t1.map (fun p => valueAt index p.1 p.2)).sum) (sel ++ t1)
      (fun e2 he2 => h e2 (List.mem_cons_of_mem e he2))
    refine ⟨t1 ++ t2, ?_, ?_⟩
    · show scanEntries pkh amount rest
        (scanOutputs pkh amount e.1 e.2 0 acc sel).1
        (scanOutputs pkh amount e.1 e.2 0 acc sel).2 = _
      rw [ht1]
      simp only [ht2, List.map_append, List.sum_append, List.append_assoc,
        Prod.mk.injEq]
      exact ⟨by omega, trivial⟩
    · intro p hp
      rcases List.mem_append.mp hp with h1 | h1
      · obtain ⟨hk, o, ho, hl⟩ := hm1 p h1
        exact ⟨e, List.mem_cons_self e rest, hk, o, ho, hl⟩
      · obtain ⟨e2, he2, rest2⟩ := hm2 p h1
        exact ⟨e2, List.mem_cons_of_mem e he2, rest2⟩

/-- In an index whose keys are distinct, every entry resolves to itself. -/
theorem entryFor_of_nodup :
    ∀ (index : List (Bytes × List TXOutput)),
      (index.map Prod.fst).Nodup →
      ∀ e ∈ index, entryFor index e.1 = some e := by
  intro index
  induction index with
  | nil => intro _ e he; exact absurd he (List.not_mem_nil e)
  | cons a rest ih =>
    intro hnd e he
    rcases List.mem_cons.mp he with h1 | h1
    · subst h1
      simp [entryFor, List.find?]
    · have hnd2 : a.1 ∉ rest.map Prod.fst ∧ (rest.map Prod.fst).Nodup := by
        rw [List.map_cons] at hnd
        exact List.nodup_cons.mp hnd
      have hne : (a.1 == e.1) = false := by
        apply beq_eq_false_iff_ne.mpr
        intro hEq
        exact hnd2.1 (hEq ▸ List.mem_map_of_mem Prod.fst h1)
      have htail := ih hnd2.2 e h1
      simp only [entryFor, List.find?, hne] at htail ⊢
      exact htail

/-- When the output scan ends still below `amount`, it selected EVERY
locked output it walked: the guard can only have been refused by the lock
check, never by the total (once the total reaches `amount` it is frozen,
contradicting the final value being below `amount`). -/
theorem scanOutputs_complete (pkh : Bytes) (amount : Int) (k : Bytes) :
    ∀ (outs : List TXOutput) (idx : Nat) (acc : Int) (sel : List (Bytes × Nat))
      (j : Nat) (o : TXOutput),
      (scanOutputs pkh amount k outs idx acc sel).1 < amount →
      outs[j]? = some o → o.isLockedWithKey pkh = true →
      (k, idx + j) ∈ (scanOutputs pkh amount k outs idx acc sel).2 := by
  intro outs
  induction outs with
  | nil =>
    intro idx acc sel j o _ hj _
    simp at hj
  | cons o2 rest ih =>
    intro idx acc sel j o hlt hj hlock
    by_cases hacc : acc < amount
    · by_cases hl : o2.isLockedWithKey pkh = true
      · have hc : (o2.isLockedWithKey pkh && decide (acc < amount)) = true := by
          simp [hl, hacc]
        rw [show scanOutputs pkh amount k (o2 :: rest) idx acc sel
            = scanOutputs pkh amount k rest (idx + 1) (acc + o2.value)
                (sel ++ [(k, idx)]) from by rw [scanOutputs, if_pos hc]] at hlt ⊢
        cases j with
        | zero =>
          obtain ⟨t, ht⟩ := scanOutputs_grow pkh amount k rest (idx + 1)
            (acc + o2.value) (sel ++ [(k, idx)])
          rw [ht]
          simp
        | succ j2 =>
          have := ih (idx + 1) (acc + o2.value) (sel ++ [(k, idx)]) j2 o hlt
            (by simpa using hj) hlock
          rw [show idx + (j2 + 1) = (idx + 1) + j2 from by omega]
          exact this
      · have hc : (o2.isLockedWithKey pkh && decide (acc < amount)) = false := by
          simp [eq_false_of_ne_true hl]
        rw [show scanOutputs pkh amount k (o2 :: rest) idx acc sel
            = scanOutputs pkh amount k rest (idx + 1) acc sel from by
              rw [scanOutputs, if_neg (by simp [hc])]] at hlt ⊢
        cases j with
        | zero =>
          have : o2 = o := by simpa using hj
          exact absurd (this ▸ hlock) (by simpa using hl)
        | succ j2 =>
          have := ih (idx + 1) acc sel j2 o hlt (by simpa using hj) hlock
          rw [show idx + (j2 + 1) = (idx + 1) + j2 from by omega]
          exact this
    · rw [scanOutputs_frozen pkh amount k (o2 :: rest) idx acc sel hacc] at hlt
      exact absurd hlt hacc

/-- When the entry scan ends still below `amount`, it selected every locked
output of every entry. -/
theorem scanEntries_complete (pkh : Bytes) (amount : Int) :
    ∀ (entries : List (Bytes × List TXOutput)) (acc : Int)
      (sel : List (Bytes × Nat)) (e : Bytes × List TXOutput)
      (j : Nat) (o : TXOutput),
      (scanEntries pkh amount entries acc sel).1 < amount →
      e ∈ entries → e.2[j]? = some o → o.isLockedWithKey pkh = true →
      (e.1, j) ∈ (scanEntries pkh amount entries acc sel).2 := by
  intro entries
  induction entries with
  | nil =>
    intro acc sel e j o _ he
    exact absurd he (List.not_mem_nil e)
  | cons e2 rest ih =>
    intro acc sel e j o hlt he hj hlock
    have hstep : scanEntries pkh amount (e2 :: rest) acc sel
        = scanEntries pkh amount rest
            (scanOutputs pkh amount e2.1 e2.2 0 acc sel).1
            (scanOutputs pkh amount e2.1 e2.2 0 acc sel).2 := rfl
    rw [hstep] at hlt ⊢
    rcases List.mem_cons.mp he with h1 | h1
    · subst h1
      have hr1 : (scanOutputs pkh amount e.1 e.2 0 acc sel).1 < amount := by
        by_contra hge
        rw [scanEntries_frozen pkh amount rest _ _ hge] at hlt
        exact hge hlt
      have hmem := scanOutputs_complete pkh amount e.1 e.2 0 acc sel j o hr1 hj hlock
      obtain ⟨t, ht⟩ := scanEntries_grow pkh amount rest
        (scanOutputs pkh amount e.1 e.2 0 acc sel).1
        (scanOutputs pkh amount e.1 e.2 0 acc sel).2
      rw [ht]
      exact List.mem_append_left t (by simpa using hmem)
    · exact ih _ _ e j o hlt h1 hj hlock

/-- Claim C8 (confirmed).  For every chainstate index with distinct keys,
every key hash and every amount, `FindSpendableOutputs` returns
`(accumulated, selection)` such that: (a) `accumulated` is exactly the sum
of the values of the outputs designated by `selection`; (b) every
designated output exists in the index and is locked with the key hash;
(c) whenever `accumulated < amount`, the selection contains EVERY output
of the index locked with the key hash — so `accumulated < amount` is a
sound and complete insufficient-funds test for the scanned index. -/
theorem findSpendableOutputs_spec (index : List (Bytes × List TXOutput))
    (pkh : Bytes) (amount : Int) (hnd : (index.map Prod.fst).Nodup) :
    (findSpendableOutputs index pkh amount).1
        = selSum index (findSpendableOutputs index pkh amount).2
    ∧ (∀ p ∈ (findSpendableOutputs index pkh amount).2,
        ∃ e ∈ index, p.1 = e.1
          ∧ ∃ o, e.2[p.2]? = some o ∧ o.isLockedWithKey pkh = true)
    ∧ ((findSpendableOutputs index pkh amount).1 < amount →
        ∀ e ∈ index, ∀ j o, e.2[j]? = some o →
          o.isLockedWithKey pkh = true →
          (e.1, j) ∈ (findSpendableOutputs index pkh amount).2) := by
  obtain ⟨t, ht, hm⟩ := scanEntries_build index pkh amount index 0 []
    (entryFor_of_nodup index hnd)
  refine ⟨?_, ?_, ?_⟩
  · show (scanEntries pkh amount index 0 []).1
      = selSum index (scanEntries pkh amount index 0 []).2
    rw [ht]
    simp [selSum]
  · intro p hp
    have hp2 : p ∈ t := by
      have : (scanEntries pkh amount index 0 []).2 = t := by rw [ht]; simp
      rw [show (findSpendableOutputs index pkh amount).2
        = (scanEntries pkh amount index 0 []).2 from rfl, this] at hp
      exact hp
    exact hm p hp2
  · intro hlt e he j o hj hlock
    exact scanEntries_complete pkh amount index 0 [] e j o hlt he hj hlock

/-- Witness for `findSpendableOutputs_spec` on a concrete one-entry index. -/
theorem findSpendableOutputs_spec_witness :
    (idxW.map Prod.fst).Nodup
    ∧ ((findSpendableOutputs idxW [7] 3).1
          = selSum idxW (findSpendableOutputs idxW [7] 3).2
        ∧ (∀ p ∈ (findSpendableOutputs idxW [7] 3).2,
            ∃ e ∈ idxW, p.1 = e.1
              ∧ ∃ o, e.2[p.2]? = some o ∧ o.isLockedWithKey [7] = true)
        ∧ ((findSpendableOutputs idxW [7] 3).1 < 3 →
            ∀ e ∈ idxW, ∀ j o, e.2[j]? = some o →
              o.isLockedWithKey [7] = true →
              (e.1, j) ∈ (findSpendableOutputs idxW [7] 3).2)) :=
  ⟨by decide, findSpendableOutputs_spec idxW [7] 3 (by decide)⟩

end BlockchainRepo
